import Mathlib

/-!
Verification of the `astro-standard-site` core against its specification.

This file gives a shallow embedding, in Lean 4, of the algorithmic core of the
repository:

* the TID (timestamp identifier) generator `generateTid` of `src/publisher.ts`,
* the record-publishing entry point `publishDocument` of `src/publisher.ts`
  (modelled as the create-record request it issues),
* the AT-URI formatting and parsing helpers of `src/verification.ts`,
* the comment aggregation pipeline of `src/comments.ts`
  (`processThread`, `fetchBlueskyReplies`, `searchBlueskyMentions`,
  `buildCommentTree`, `fetchComments`, `flattenComments`, `countComments`).

JavaScript numbers that the source only ever uses as integers are embedded as
`Nat` / `Int`; BigInt arithmetic is exact and is embedded as `Nat` with the
explicit 63-bit mask of the source.  Collaborator calls (network fetches) are
embedded as explicit parameters: a value of type `Except Unit α` stands for
the result of an awaited call that either returned `α` or threw.
-/

namespace StandardSite

/-! ## TID generation (`src/publisher.ts`, lines 158-178) -/

/-- The base32-sortable alphabet of `src/publisher.ts`:
`const BASE32_SORTABLE = '234567abcdefghijklmnopqrstuvwxyz'`. -/
def BASE32_SORTABLE : String := "234567abcdefghijklmnopqrstuvwxyz"

/-- Character indexing `BASE32_SORTABLE[index]`.  The source only ever indexes
with `Number(remaining & 31n) < 32`, which is in range, so the default value
of `getD` is never returned. -/
def b32char (i : ℕ) : Char := BASE32_SORTABLE.data.getD i '2'

/-- The 64-bit value composed by `generateTid`:
`((BigInt(now) << 10n) | BigInt(clockId)) & 0x7FFFFFFFFFFFFFFFn` where
`now = Date.now() * 1000`.  `nowMs` is the millisecond clock reading
`Date.now()` and `clockId` is the draw `Math.floor(Math.random() * 1024)`
of the random source (an integer in `[0, 1024)`). -/
def tidNat (nowMs clockId : ℕ) : ℕ :=
  (((nowMs * 1000) <<< 10) ||| clockId) &&& 0x7FFFFFFFFFFFFFFF

/-- The encoding loop of `generateTid`: thirteen iterations of
`encoded = BASE32_SORTABLE[Number(remaining & 31n)] + encoded;
remaining = remaining >> 5n`.  The first argument counts the remaining
iterations and `acc` is the string built so far (the loop prepends). -/
def tidEncodeLoop : ℕ → ℕ → List Char → List Char
  | 0, _, acc => acc
  | i + 1, remaining, acc =>
      tidEncodeLoop i (remaining >>> 5) (b32char (remaining &&& 31) :: acc)

/-- The function `generateTid()` of `src/publisher.ts`, with the clock reading
and the random draw made explicit parameters. -/
def generateTid (nowMs clockId : ℕ) : String :=
  ⟨tidEncodeLoop 13 (tidNat nowMs clockId) []⟩

/-- Big-endian base-32 digit list of `v`, `n` digits long (most significant
first); the specification-level view of the encoding loop. -/
def tidDigits : ℕ → ℕ → List ℕ
  | 0, _ => []
  | n + 1, v => tidDigits n (v / 32) ++ [v % 32]

theorem tidEncodeLoop_eq (n : ℕ) : ∀ (v : ℕ) (acc : List Char),
    tidEncodeLoop n v acc = (tidDigits n v).map b32char ++ acc := by
  induction n with
  | zero => intro v acc; rfl
  | succ n ih =>
      intro v acc
      have h31 : v &&& 31 = v % 32 := by
        have : (31 : ℕ) = 2 ^ 5 - 1 := by norm_num
        rw [this, Nat.and_pow_two_sub_one_eq_mod]
      have h5 : v >>> 5 = v / 32 := by
        rw [Nat.shiftRight_eq_div_pow]
      rw [tidEncodeLoop, ih, h31, h5, tidDigits, List.map_append]
      simp

theorem tidDigits_length (n : ℕ) : ∀ v : ℕ, (tidDigits n v).length = n := by
  induction n with
  | zero => intro v; rfl
  | succ n ih => intro v; rw [tidDigits]; simp [ih]

theorem tidDigits_mem_lt (n : ℕ) : ∀ v d : ℕ, d ∈ tidDigits n v → d < 32 := by
  induction n with
  | zero => intro v d h; cases h
  | succ n ih =>
      intro v d h
      rw [tidDigits, List.mem_append] at h
      rcases h with h | h
      · exact ih _ _ h
      · simp at h; subst h; exact Nat.mod_lt _ (by norm_num)

theorem tidDigits_head (n : ℕ) : ∀ v : ℕ,
    (tidDigits (n + 1) v).head? = some (v / 32 ^ n % 32) := by
  induction n with
  | zero => intro v; simp [tidDigits]
  | succ n ih =>
      intro v
      rw [tidDigits, List.head?_append, ih]
      simp [Nat.div_div_eq_div_mul, pow_succ, mul_comm]

theorem lex_append_same (lt : ℕ → ℕ → Prop) (xs : List ℕ) (x y : ℕ)
    (h : lt x y) : List.Lex lt (xs ++ [x]) (xs ++ [y]) := by
  induction xs with
  | nil => exact List.Lex.rel h
  | cons a l ih => exact List.Lex.cons ih

theorem lex_append_of_lex (lt : ℕ → ℕ → Prop) :
    ∀ (xs ys : List ℕ) (x y : ℕ), xs.length = ys.length →
      List.Lex lt xs ys → List.Lex lt (xs ++ [x]) (ys ++ [y]) := by
  intro xs
  induction xs with
  | nil =>
      intro ys x y hlen h
      cases h with
      | nil => simp at hlen
  | cons a l ih =>
      intro ys x y hlen h
      cases h with
      | rel hr => exact List.Lex.rel hr
      | cons ht =>
          simp only [List.length_cons, Nat.succ_inj] at hlen
          exact List.Lex.cons (ih _ x y hlen ht)

theorem tidDigits_lex (n : ℕ) : ∀ a b : ℕ, a < b → b < 32 ^ n →
    List.Lex (· < ·) (tidDigits n a) (tidDigits n b) := by
  induction n with
  | zero => intro a b hab hb; simp at hb; omega
  | succ n ih =>
      intro a b hab hb
      have hdivle : a / 32 ≤ b / 32 := Nat.div_le_div_right (le_of_lt hab)
      rw [tidDigits, tidDigits]
      rcases lt_or_eq_of_le hdivle with hlt | heq
      · have hbdiv : b / 32 < 32 ^ n := by
          apply Nat.div_lt_of_lt_mul
          rw [pow_succ] at hb
          omega
        exact lex_append_of_lex _ _ _ _ _
          (by rw [tidDigits_length, tidDigits_length]) (ih _ _ hlt hbdiv)
      · have hmod : a % 32 < b % 32 := by
          have ha := Nat.div_add_mod a 32
          have hb' := Nat.div_add_mod b 32
          omega
        rw [heq]
        exact lex_append_same _ _ _ _ hmod

theorem b32char_strict_mono : ∀ i < 32, ∀ j < 32, i < j → b32char i < b32char j := by
  decide

theorem b32char_mem_alphabet : ∀ i < 32, b32char i ∈ BASE32_SORTABLE.data := by
  decide

theorem lex_map_b32char : ∀ (xs ys : List ℕ), (∀ d ∈ xs, d < 32) →
    (∀ d ∈ ys, d < 32) → List.Lex (· < ·) xs ys →
    List.Lex (· < ·) (xs.map b32char) (ys.map b32char) := by
  intro xs
  induction xs with
  | nil =>
      intro ys _ _ h
      cases h with
      | nil => exact List.Lex.nil
  | cons a l ih =>
      intro ys hx hy h
      cases h with
      | rel hr =>
          exact List.Lex.rel
            (b32char_strict_mono _ (hx _ (List.mem_cons_self _ _))
              _ (hy _ (List.mem_cons_self _ _)) hr)
      | cons ht =>
          exact List.Lex.cons
            (ih _ (fun d hd => hx d (List.mem_cons_of_mem _ hd))
              (fun d hd => hy d (List.mem_cons_of_mem _ hd)) ht)

theorem shiftLeft_lor_small (a c : ℕ) (hc : c < 2 ^ 10) :
    a <<< 10 ||| c = a * 2 ^ 10 + c := by
  apply Nat.eq_of_testBit_eq
  intro i
  rw [Nat.testBit_lor, Nat.testBit_shiftLeft, Nat.mul_comm a (2 ^ 10),
    Nat.testBit_mul_pow_two_add a hc]
  by_cases h : i < 10
  · simp [h, Nat.not_le.mpr h]
  · have hge : 10 ≤ i := Nat.le_of_not_lt h
    have hcf : c.testBit i = false :=
      Nat.testBit_lt_two_pow
        (lt_of_lt_of_le hc (Nat.pow_le_pow_right (by norm_num) hge))
    simp [h, hge, hcf]

theorem tidNat_eq_mod (nowMs clockId : ℕ) (hc : clockId < 1024) :
    tidNat nowMs clockId = (nowMs * 1000 * 1024 + clockId) % 2 ^ 63 := by
  have hmask : (0x7FFFFFFFFFFFFFFF : ℕ) = 2 ^ 63 - 1 := by norm_num
  have hc10 : clockId < 2 ^ 10 := by
    have h10 : (2 : ℕ) ^ 10 = 1024 := by norm_num
    omega
  rw [tidNat, hmask, Nat.and_pow_two_sub_one_eq_mod, shiftLeft_lor_small _ _ hc10]
  norm_num

theorem tidNat_lt (nowMs clockId : ℕ) : tidNat nowMs clockId < 2 ^ 63 := by
  have hmask : (0x7FFFFFFFFFFFFFFF : ℕ) = 2 ^ 63 - 1 := by norm_num
  rw [tidNat, hmask, Nat.and_pow_two_sub_one_eq_mod]
  exact Nat.mod_lt _ (by norm_num)

theorem tidNat_eq_of_fits (nowMs clockId : ℕ) (hc : clockId < 1024)
    (hfit : nowMs * 1000 < 2 ^ 53) :
    tidNat nowMs clockId = nowMs * 1000 * 1024 + clockId := by
  rw [tidNat_eq_mod _ _ hc]
  apply Nat.mod_eq_of_lt
  have h53 : (2 : ℕ) ^ 53 = 9007199254740992 := by norm_num
  have h63 : (2 : ℕ) ^ 63 = 9223372036854775808 := by norm_num
  omega

theorem tidNat_mod_1024 (nowMs clockId : ℕ) (hc : clockId < 1024) :
    tidNat nowMs clockId % 1024 = clockId := by
  rw [tidNat_eq_mod _ _ hc]
  have h1024 : (1024 : ℕ) ∣ 2 ^ 63 := by norm_num
  rw [Nat.mod_mod_of_dvd _ h1024]
  omega

theorem generateTid_data (nowMs clockId : ℕ) :
    (generateTid nowMs clockId).data =
      (tidDigits 13 (tidNat nowMs clockId)).map b32char := by
  rw [generateTid]
  show tidEncodeLoop 13 (tidNat nowMs clockId) [] = _
  rw [tidEncodeLoop_eq, List.append_nil]

theorem generateTid_head_digit_lt (nowMs clockId : ℕ) :
    tidNat nowMs clockId / 32 ^ 12 % 32 < 8 := by
  have h := tidNat_lt nowMs clockId
  have h32 : (32 : ℕ) ^ 12 = 2 ^ 60 := by norm_num
  have hdiv : tidNat nowMs clockId / 32 ^ 12 < 8 := by
    rw [h32]
    apply Nat.div_lt_of_lt_mul
    calc tidNat nowMs clockId < 2 ^ 63 := h
    _ = 2 ^ 60 * 8 := by norm_num
  exact lt_of_le_of_lt (Nat.mod_le _ _) hdiv

theorem generateTid_cons (nowMs clockId : ℕ) :
    ∃ rest : List Char,
      (generateTid nowMs clockId).data =
        b32char (tidNat nowMs clockId / 32 ^ 12 % 32) :: rest := by
  rw [generateTid_data]
  have hhead := tidDigits_head 12 (tidNat nowMs clockId)
  rcases hd : tidDigits 13 (tidNat nowMs clockId) with _ | ⟨d, rest⟩
  · have := tidDigits_length 13 (tidNat nowMs clockId)
    rw [hd] at this
    simp at this
  · rw [hd] at hhead
    simp only [List.head?_cons, Option.some_inj] at hhead
    exact ⟨rest.map b32char, by rw [hhead, List.map_cons]⟩

/-- C1: for every clock reading and every draw of the random source, the
string returned by `generateTid` has length exactly 13, its first character
is among the sixteen symbols `234567abcdefghij`, and its remaining twelve
characters are among the thirty-two symbols of the base32-sortable alphabet
(the regex `[234567abcdefghij][234567abcdefghijklmnopqrstuvwxyz]{12}`
anchored on both sides). -/
theorem generateTid_matches_tid_format (nowMs clockId : ℕ) :
    (generateTid nowMs clockId).length = 13 ∧
    (∀ c ∈ (generateTid nowMs clockId).data.take 1,
      c ∈ ("234567abcdefghij" : String).data) ∧
    (∀ c ∈ (generateTid nowMs clockId).data.drop 1,
      c ∈ BASE32_SORTABLE.data) := by
  have hdata := generateTid_data nowMs clockId
  refine ⟨?_, ?_, ?_⟩
  · show (generateTid nowMs clockId).data.length = 13
    rw [hdata, List.length_map, tidDigits_length]
  · intro c hc
    obtain ⟨rest, hrest⟩ := generateTid_cons nowMs clockId
    rw [hrest] at hc
    simp only [List.take_succ_cons, List.take_zero, List.mem_singleton] at hc
    subst hc
    have hlt := generateTid_head_digit_lt nowMs clockId
    have hmem : ∀ i < 8, b32char i ∈ ("234567abcdefghij" : String).data := by
      decide
    exact hmem _ hlt
  · intro c hc
    have hc' : c ∈ (generateTid nowMs clockId).data :=
      List.mem_of_mem_drop hc
    rw [hdata] at hc'
    obtain ⟨d, hd, rfl⟩ := List.mem_map.mp hc'
    exact b32char_mem_alphabet _ (tidDigits_mem_lt _ _ _ hd)

/-- C10: for every clock reading and every draw of the random source, the
first character of the string returned by `generateTid` is one of the eight
symbols `234567ab`: the masked value has at most 63 significant bits while
the thirteen five-bit characters cover 65 bit positions, so the leading
digit is always strictly below 8. -/
theorem generateTid_first_char_below_8 (nowMs clockId : ℕ) :
    ∃ (c0 : Char) (rest : List Char),
      (generateTid nowMs clockId).data = c0 :: rest ∧
      c0 ∈ ("234567ab" : String).data := by
  obtain ⟨rest, hrest⟩ := generateTid_cons nowMs clockId
  refine ⟨_, rest, hrest, ?_⟩
  have hlt := generateTid_head_digit_lt nowMs clockId
  have hmem : ∀ i < 8, b32char i ∈ ("234567ab" : String).data := by decide
  exact hmem _ hlt

/-- C2: for two `generateTid` calls whose millisecond clock readings satisfy
`t1 < t2`, with both shifted timestamps fitting in the 53-bit field and both
clock-identifier draws in range, the first string is strictly smaller than
the second in lexicographic order. -/
theorem generateTid_monotone (t1 t2 c1 c2 : ℕ) (h12 : t1 < t2)
    (hfit : t2 * 1000 < 2 ^ 53) (hc1 : c1 < 1024) (hc2 : c2 < 1024) :
    generateTid t1 c1 < generateTid t2 c2 := by
  rw [String.lt_iff_toList_lt]
  show List.Lex (· < ·) (generateTid t1 c1).data (generateTid t2 c2).data
  rw [generateTid_data, generateTid_data]
  have hfit1 : t1 * 1000 < 2 ^ 53 := by
    have := Nat.mul_le_mul_right 1000 (Nat.le_of_lt h12)
    omega
  have hv1 : tidNat t1 c1 = t1 * 1000 * 1024 + c1 := tidNat_eq_of_fits _ _ hc1 hfit1
  have hv2 : tidNat t2 c2 = t2 * 1000 * 1024 + c2 := tidNat_eq_of_fits _ _ hc2 hfit
  have hlt : tidNat t1 c1 < tidNat t2 c2 := by
    rw [hv1, hv2]
    have : t1 + 1 ≤ t2 := h12
    have hmul : (t1 + 1) * 1000 * 1024 ≤ t2 * 1000 * 1024 := by
      apply Nat.mul_le_mul_right
      apply Nat.mul_le_mul_right
      exact this
    omega
  have hbound : tidNat t2 c2 < 32 ^ 13 := by
    have := tidNat_lt t2 c2
    have h3213 : (32 : ℕ) ^ 13 = 2 ^ 65 := by norm_num
    have h6365 : (2 : ℕ) ^ 63 < 2 ^ 65 := by norm_num
    omega
  exact lex_map_b32char _ _ (fun d hd => tidDigits_mem_lt _ _ _ hd)
    (fun d hd => tidDigits_mem_lt _ _ _ hd)
    (tidDigits_lex 13 _ _ hlt hbound)

/-- C2 witness: the monotonicity theorem applied at the concrete clock
readings 1 and 2 milliseconds with clock identifier 0 on both sides. -/
theorem generateTid_monotone_witness :
    1 < 2 ∧ 2 * 1000 < 2 ^ 53 ∧ (0 : ℕ) < 1024 ∧
      generateTid 1 0 < generateTid 2 0 :=
  ⟨by norm_num, by norm_num, by norm_num,
    generateTid_monotone 1 2 0 0 (by norm_num) (by norm_num) (by norm_num)
      (by norm_num)⟩

/-- C6 (as stated) is refuted at clock-identifier draw 1023: the draw 1023 is
a possible value of `Math.floor(Math.random() * 1024)`, and the low ten bits
of the composed value then equal 1023, which is not strictly below 1023. -/
theorem tid_clock_id_counterexample :
    1023 < 1024 ∧ tidNat 1700000000000 1023 % 1024 = 1023 ∧
      ¬ tidNat 1700000000000 1023 % 1024 < 1023 := by
  refine ⟨by norm_num, ?_, ?_⟩
  · rw [tidNat_mod_1024 _ _ (by norm_num)]
  · rw [tidNat_mod_1024 _ _ (by norm_num)]
    omega

/-- C6 (amended): for every clock reading and every draw of the random
source, the clock-identifier field (the low ten bits) of the value composed
by `generateTid` equals the draw and lies in the interval `[0, 1024)`, that
is, it is strictly below 1024 (at most 1023), not strictly below 1023. -/
theorem tid_clock_id_field (nowMs clockId : ℕ) (hc : clockId < 1024) :
    tidNat nowMs clockId % 1024 = clockId ∧
      tidNat nowMs clockId % 1024 < 1024 :=
  ⟨tidNat_mod_1024 _ _ hc, Nat.mod_lt _ (by norm_num)⟩

/-- C6 witness: the amended clock-identifier-field theorem applied at the
concrete clock reading 5 and draw 7. -/
theorem tid_clock_id_field_witness :
    (7 : ℕ) < 1024 ∧ tidNat 5 7 % 1024 = 7 ∧ tidNat 5 7 % 1024 < 1024 :=
  ⟨by norm_num, tid_clock_id_field 5 7 (by norm_num)⟩

/-! ## AT-URI formatting and parsing (`src/verification.ts`, lines 68-94) -/

/-- The function `getDocumentAtUri` of `src/verification.ts`. -/
def getDocumentAtUri (did rkey : String) : String :=
  "at://" ++ did ++ "/site.standard.document/" ++ rkey

/-- The function `getPublicationAtUri` of `src/verification.ts`. -/
def getPublicationAtUri (did rkey : String) : String :=
  "at://" ++ did ++ "/site.standard.publication/" ++ rkey

/-- The four characters that the JavaScript regex `.` does not match
(line terminators: LF, CR, LINE SEPARATOR, PARAGRAPH SEPARATOR). -/
def isLineTerminator (c : Char) : Bool :=
  c = '\n' || c = '\r' || c = Char.ofNat 0x2028 || c = Char.ofNat 0x2029

/-- The regex match of `parseAtUri` in `src/verification.ts`:
`uri.match(/^at:\/\/([^\/]+)\/([^\/]+)\/(.+)$/)`, hand-compiled.  The
anchored regex matches exactly when the string is `at://` followed by a
nonempty slash-free segment, a slash, a nonempty slash-free segment, a
slash, and a nonempty tail with no line terminator; since `[^/]+` cannot
cross a slash and the literal `/` after it forces each segment to end at
the first following slash, and `(.+)$` must cover the whole remaining
tail, this decomposition is the unique match. -/
def parseAtUriChars : List Char → Option (String × String × String)
  | 'a' :: 't' :: ':' :: '/' :: '/' :: rest =>
    match rest.takeWhile (fun c => c != '/'), rest.dropWhile (fun c => c != '/') with
    | seg1@(_ :: _), _ :: rest2 =>
        match rest2.takeWhile (fun c => c != '/'), rest2.dropWhile (fun c => c != '/') with
        | seg2@(_ :: _), _ :: seg3 =>
            if seg3 != [] && seg3.all (fun c => !isLineTerminator c) then
              some (⟨seg1⟩, ⟨seg2⟩, ⟨seg3⟩)
            else none
        | _, _ => none
    | _, _ => none
  | _ => none

/-- The function `parseAtUri` of `src/verification.ts`, returning the triple
(repository identity, collection, record key) on a match and `none` where
the source returns `null`. -/
def parseAtUri (uri : String) : Option (String × String × String) :=
  parseAtUriChars uri.data

theorem takeWhile_append_all (p : Char → Bool) (x : Char) (l₂ : List Char)
    (hx : p x = false) : ∀ l₁ : List Char, (∀ c ∈ l₁, p c = true) →
      (l₁ ++ x :: l₂).takeWhile p = l₁ := by
  intro l₁
  induction l₁ with
  | nil => intro _; simp [List.takeWhile_cons, hx]
  | cons a l ih =>
      intro h
      have ha := h a (List.mem_cons_self _ _)
      simp [List.takeWhile_cons, ha,
        ih (fun c hc => h c (List.mem_cons_of_mem _ hc))]

theorem dropWhile_append_all (p : Char → Bool) (x : Char) (l₂ : List Char)
    (hx : p x = false) : ∀ l₁ : List Char, (∀ c ∈ l₁, p c = true) →
      (l₁ ++ x :: l₂).dropWhile p = x :: l₂ := by
  intro l₁
  induction l₁ with
  | nil => intro _; simp [List.dropWhile_cons, hx]
  | cons a l ih =>
      intro h
      have ha := h a (List.mem_cons_self _ _)
      simp [List.dropWhile_cons, ha,
        ih (fun c hc => h c (List.mem_cons_of_mem _ hc))]

theorem string_data_ne_nil {s : String} (h : s ≠ "") : s.data ≠ [] := by
  intro hdata
  apply h
  cases s with
  | mk l => cases hdata; rfl

theorem parseAtUriChars_format (did coll rkey : String) (hdid : did ≠ "")
    (hdslash : ∀ c ∈ did.data, c ≠ '/') (hcoll : coll.data ≠ [])
    (hcslash : ∀ c ∈ coll.data, c ≠ '/') (hrkey : rkey ≠ "")
    (hterm : ∀ c ∈ rkey.data, isLineTerminator c = false) :
    parseAtUriChars
        ('a' :: 't' :: ':' :: '/' :: '/' ::
          (did.data ++ '/' :: (coll.data ++ '/' :: rkey.data)))
      = some (did, coll, rkey) := by
  have hdid' : ∀ c ∈ did.data, (c != '/') = true := by
    intro c hc; simpa using hdslash c hc
  have hcoll' : ∀ c ∈ coll.data, (c != '/') = true := by
    intro c hc; simpa using hcslash c hc
  have hslashf : (('/' : Char) != '/') = false := by decide
  have htake1 := takeWhile_append_all (fun c => c != '/') '/'
    (coll.data ++ '/' :: rkey.data) hslashf did.data hdid'
  have hdrop1 := dropWhile_append_all (fun c => c != '/') '/'
    (coll.data ++ '/' :: rkey.data) hslashf did.data hdid'
  have htake2 := takeWhile_append_all (fun c => c != '/') '/' rkey.data
    hslashf coll.data hcoll'
  have hdrop2 := dropWhile_append_all (fun c => c != '/') '/' rkey.data
    hslashf coll.data hcoll'
  have hne : (rkey.data != []) = true := by
    simpa using string_data_ne_nil hrkey
  have hall : rkey.data.all (fun c => !isLineTerminator c) = true := by
    rw [List.all_eq_true]
    intro c hcmem
    simpa using hterm c hcmem
  obtain ⟨d0, drest, hd⟩ : ∃ d0 drest, did.data = d0 :: drest := by
    rcases hzero : did.data with _ | ⟨a, b⟩
    · exact absurd hzero (string_data_ne_nil hdid)
    · exact ⟨a, b, rfl⟩
  obtain ⟨c0, crest, hcc⟩ : ∃ c0 crest, coll.data = c0 :: crest := by
    rcases hzero : coll.data with _ | ⟨a, b⟩
    · exact absurd hzero hcoll
    · exact ⟨a, b, rfl⟩
  rw [hcc] at htake2 hdrop2
  rw [parseAtUriChars, htake1, hdrop1, hd, hcc]
  simp only [htake2, hdrop2, hne, hall, Bool.and_self, if_true]
  rw [← hd, ← hcc]

theorem getDocumentAtUri_data (did rkey : String) :
    (getDocumentAtUri did rkey).data =
      'a' :: 't' :: ':' :: '/' :: '/' ::
        (did.data ++ '/' :: (("site.standard.document" : String).data
          ++ '/' :: rkey.data)) := by
  rw [getDocumentAtUri]
  rw [String.data_append, String.data_append, String.data_append]
  have h1 : ("at://" : String).data = ['a', 't', ':', '/', '/'] := rfl
  have h2 : ("/site.standard.document/" : String).data
      = '/' :: (("site.standard.document" : String).data ++ ['/']) := rfl
  rw [h1, h2]
  simp

theorem getPublicationAtUri_data (did rkey : String) :
    (getPublicationAtUri did rkey).data =
      'a' :: 't' :: ':' :: '/' :: '/' ::
        (did.data ++ '/' :: (("site.standard.publication" : String).data
          ++ '/' :: rkey.data)) := by
  rw [getPublicationAtUri]
  rw [String.data_append, String.data_append, String.data_append]
  have h1 : ("at://" : String).data = ['a', 't', ':', '/', '/'] := rfl
  have h2 : ("/site.standard.publication/" : String).data
      = '/' :: (("site.standard.publication" : String).data ++ ['/']) := rfl
  rw [h1, h2]
  simp

/-- C9 (as stated) is refuted at the empty identity string: the empty string
contains no slash and the key `3abc` is nonempty, yet the parse of the
formatted address fails (the regex group `[^/]+` requires at least one
character for the identity), so the round trip does not return the triple. -/
theorem parseAtUri_roundtrip_counterexample :
    (∀ c ∈ ("" : String).data, c ≠ '/') ∧ ("3abc" : String) ≠ "" ∧
      parseAtUri (getDocumentAtUri "" "3abc") = none := by
  refine ⟨by decide, by decide, ?_⟩
  rfl

/-- C9 (amended): for every nonempty identity string containing no slash and
every nonempty key string containing no line-terminator character,
`parseAtUri` applied to `getDocumentAtUri did rkey` returns exactly the
triple (did, site.standard.document, rkey), and likewise for
`getPublicationAtUri` with collection site.standard.publication. -/
theorem parseAtUri_roundtrip (did rkey : String) (hdid : did ≠ "")
    (hdslash : ∀ c ∈ did.data, c ≠ '/') (hrkey : rkey ≠ "")
    (hterm : ∀ c ∈ rkey.data, isLineTerminator c = false) :
    parseAtUri (getDocumentAtUri did rkey)
        = some (did, "site.standard.document", rkey) ∧
      parseAtUri (getPublicationAtUri did rkey)
        = some (did, "site.standard.publication", rkey) := by
  constructor
  · rw [parseAtUri, getDocumentAtUri_data]
    exact parseAtUriChars_format did "site.standard.document" rkey hdid
      hdslash (by decide) (by decide) hrkey hterm
  · rw [parseAtUri, getPublicationAtUri_data]
    exact parseAtUriChars_format did "site.standard.publication" rkey hdid
      hdslash (by decide) (by decide) hrkey hterm

/-- C9 witness: the amended round-trip theorem applied at the concrete
identity did:plc:abc123 and key 3k2akusi5x2a. -/
theorem parseAtUri_roundtrip_witness :
    (("did:plc:abc123" : String) ≠ "" ∧
      (∀ c ∈ ("did:plc:abc123" : String).data, c ≠ '/') ∧
      ("3k2akusi5x2a" : String) ≠ "" ∧
      (∀ c ∈ ("3k2akusi5x2a" : String).data, isLineTerminator c = false)) ∧
    parseAtUri (getDocumentAtUri "did:plc:abc123" "3k2akusi5x2a")
        = some ("did:plc:abc123", "site.standard.document", "3k2akusi5x2a") ∧
      parseAtUri (getPublicationAtUri "did:plc:abc123" "3k2akusi5x2a")
        = some ("did:plc:abc123", "site.standard.publication", "3k2akusi5x2a") :=
  ⟨⟨by decide, by decide, by decide, by decide⟩,
    parseAtUri_roundtrip "did:plc:abc123" "3k2akusi5x2a" (by decide)
      (by decide) (by decide) (by decide)⟩

/-! ## Document publishing (`src/publisher.ts`, lines 250-287)

The method `publishDocument` is embedded as the create-record request it
issues.  Its runtime input is modelled with every field optional, because a
JavaScript caller can omit any field at runtime (the REQUIRED markers of
`PublishDocumentInput` are static TypeScript types only, erased before the
code runs).  The opaque `content` value and the blob-free parts of
`bskyPostRef` are modelled as strings. -/

/-- One value of a document-record field, after JSON-level flattening:
a string, a string list (tags), or a strong reference (uri, cid). -/
inductive FieldValue where
  | str (s : String) : FieldValue
  | strList (l : List String) : FieldValue
  | ref (uri cid : String) : FieldValue
deriving DecidableEq, Repr

/-- The runtime shape of a `publishDocument` input object: every field can be
absent at runtime.  Field order matches `PublishDocumentInput`. -/
structure PublishDocumentInputR where
  site : Option String := none
  title : Option String := none
  publishedAt : Option String := none
  path : Option String := none
  description : Option String := none
  updatedAt : Option String := none
  tags : Option (List String) := none
  textContent : Option String := none
  content : Option String := none
  bskyPostRef : Option (String × String) := none
deriving DecidableEq, Repr

/-- A `com.atproto.repo.createRecord` request as issued by the publisher. -/
structure CreateRecordCall where
  repo : String
  collection : String
  rkey : String
  record : List (String × FieldValue)
deriving DecidableEq, Repr

/-- Entry list of the document record built by `publishDocument` after
`Object.entries(record).filter(([_, v]) => v !== undefined)`: the `$type`
field followed by exactly the present fields, in the literal order of the
record object in the source. -/
def documentRecordEntries (input : PublishDocumentInputR) :
    List (String × FieldValue) :=
  [("$type", FieldValue.str "site.standard.document")]
    ++ (match input.site with
        | some s => [("site", FieldValue.str s)] | none => [])
    ++ (match input.title with
        | some s => [("title", FieldValue.str s)] | none => [])
    ++ (match input.publishedAt with
        | some s => [("publishedAt", FieldValue.str s)] | none => [])
    ++ (match input.path with
        | some s => [("path", FieldValue.str s)] | none => [])
    ++ (match input.description with
        | some s => [("description", FieldValue.str s)] | none => [])
    ++ (match input.updatedAt with
        | some s => [("updatedAt", FieldValue.str s)] | none => [])
    ++ (match input.tags with
        | some l => [("tags", FieldValue.strList l)] | none => [])
    ++ (match input.textContent with
        | some s => [("textContent", FieldValue.str s)] | none => [])
    ++ (match input.content with
        | some s => [("content", FieldValue.str s)] | none => [])
    ++ (match input.bskyPostRef with
        | some r => [("bskyPostRef", FieldValue.ref r.1 r.2)] | none => [])

/-- The method `publishDocument` of `src/publisher.ts`, embedded as the
request it sends.  `loggedInDid` is the state set by `login()` (`none`
models a publisher on which `login()` was never called, where `getDid()`
throws); `rkey` is the TID generated for the call.  The result is either
the thrown error message or the `createRecord` call that is issued. -/
def publishDocument (loggedInDid : Option String)
    (input : PublishDocumentInputR) (rkey : String) :
    Except String CreateRecordCall :=
  match loggedInDid with
  | none => Except.error "Not logged in. Call login() first."
  | some did =>
      Except.ok
        { repo := did
          collection := "site.standard.document"
          rkey := rkey
          record := documentRecordEntries input }

/-- C5 (as stated) is refuted: at the concrete runtime input with `site`,
`title` and `publishedAt` all absent, a logged-in publisher raises no caller
error and the create-record call is issued anyway, carrying only the
`$type` field. -/
theorem publishDocument_no_validation_counterexample :
    publishDocument (some "did:plc:abc123") {} "3k2akusi5x2a"
      = Except.ok
          { repo := "did:plc:abc123"
            collection := "site.standard.document"
            rkey := "3k2akusi5x2a"
            record := [("$type", FieldValue.str "site.standard.document")] } :=
  rfl

/-- C5 (amended): `publishDocument` performs no runtime presence check on
`site`, `title` and `publishedAt`; for every logged-in state and every
input, including inputs with all three required fields absent, it raises no
caller error and issues the create-record call with the absent fields
stripped from the transmitted record.  The only check made before the
network call is the login check; the REQUIRED markers are static TypeScript
typing with no runtime effect. -/
theorem publishDocument_always_issues_call (did rkey : String)
    (input : PublishDocumentInputR) :
    publishDocument (some did) input rkey
        = Except.ok
            { repo := did
              collection := "site.standard.document"
              rkey := rkey
              record := documentRecordEntries input } ∧
      (input.site = none → input.title = none → input.publishedAt = none →
        (publishDocument (some did) input rkey).isOk = true) := by
  constructor
  · rfl
  · intro _ _ _
    rfl

/-! ## Comment aggregation (`src/comments.ts`)

The `Comment` shape of `src/comments.ts` is a recursive record: the optional
`replies` field holds nested comments.  Timestamps (`createdAt : Date`) are
embedded as their millisecond value (`Int`).  The enumerated `source` tag is
kept as a string. -/

/-- The `Author` shape of `src/comments.ts`. -/
structure Author where
  did : String
  handle : String
  displayName : Option String := none
  avatar : Option String := none
deriving DecidableEq, Repr

/-- The `Comment` shape of `src/comments.ts`; fields in source order. -/
inductive Comment where
  | mk (uri cid text : String) (author : Author) (createdAt : Int)
      (source sourceUrl : String) (parentUri : Option String)
      (likeCount replyCount : Option ℕ)
      (replies : Option (List Comment)) : Comment

/-- Address (`uri` field) of a comment. -/
def Comment.uri : Comment → String
  | .mk u _ _ _ _ _ _ _ _ _ _ => u

/-- Creation time (`createdAt` field, millisecond value) of a comment. -/
def Comment.createdAt : Comment → Int
  | .mk _ _ _ _ ca _ _ _ _ _ _ => ca

/-- Parent address (`parentUri` field) of a comment. -/
def Comment.parentUri : Comment → Option String
  | .mk _ _ _ _ _ _ _ p _ _ _ => p

/-- Nested replies (`replies` field) of a comment. -/
def Comment.replies : Comment → Option (List Comment)
  | .mk _ _ _ _ _ _ _ _ _ _ r => r

/-- The spread `{...comment, replies: r}`: the same comment with the
`replies` field replaced. -/
def Comment.withReplies : Comment → Option (List Comment) → Comment
  | .mk u c t a ca s su p lc rc _, r => .mk u c t a ca s su p lc rc r

/-- Boolean equality on comments (used only to decide propositional
equality; structural recursion through the nested `replies` field). -/
def Comment.beq : Comment → Comment → Bool
  | .mk u1 c1 t1 a1 ca1 s1 su1 p1 lc1 rc1 r1,
    .mk u2 c2 t2 a2 ca2 s2 su2 p2 lc2 rc2 r2 =>
      u1 == u2 && c1 == c2 && t1 == t2 && a1 == a2 && ca1 == ca2 &&
        s1 == s2 && su1 == su2 && p1 == p2 && lc1 == lc2 && rc1 == rc2 &&
        beqO r1 r2
where
  beqO : Option (List Comment) → Option (List Comment) → Bool
    | none, none => true
    | some l1, some l2 => beqL l1 l2
    | _, _ => false
  beqL : List Comment → List Comment → Bool
    | [], [] => true
    | x :: xs, y :: ys => x.beq y && beqL xs ys
    | _, _ => false

theorem Comment.beq_iff : ∀ a b : Comment, (Comment.beq a b = true) ↔ a = b
  | .mk u1 c1 t1 a1 ca1 s1 su1 p1 lc1 rc1 r1,
    .mk u2 c2 t2 a2 ca2 s2 su2 p2 lc2 rc2 r2 => by
      simp only [Comment.beq, Bool.and_eq_true, and_assoc, beq_iff_eq,
        mk.injEq, beqO_iff]
where
  beqO_iff : ∀ a b : Option (List Comment),
      (Comment.beq.beqO a b = true) ↔ a = b
    | none, none => by simp [Comment.beq.beqO]
    | some l1, some l2 => by simp [Comment.beq.beqO, beqL_iff l1 l2]
    | none, some _ => by simp [Comment.beq.beqO]
    | some _, none => by simp [Comment.beq.beqO]
  beqL_iff : ∀ a b : List Comment, (Comment.beq.beqL a b = true) ↔ a = b
    | [], [] => by simp [Comment.beq.beqL]
    | x :: xs, y :: ys => by
        simp [Comment.beq.beqL, Comment.beq_iff x y, beqL_iff xs ys]
    | [], _ :: _ => by simp [Comment.beq.beqL]
    | _ :: _, [] => by simp [Comment.beq.beqL]

instance : DecidableEq Comment := fun a b =>
  decidable_of_iff _ (Comment.beq_iff a b)

/-- JavaScript truthiness of an optional string value: present and
nonempty. -/
def jsTruthy : Option String → Bool
  | none => false
  | some s => s != ""

/-- The node object `{...comment, replies: []}` stored in `commentMap` during
the first pass of `buildCommentTree`. -/
def nodeOf (c : Comment) : Comment := c.withReplies (some [])

/-- Lookup in `commentMap` after the first pass of `buildCommentTree`:
`Map.set` overwrites, so the stored node for a key is built from the last
comment in input order carrying that `uri`. -/
def commentMapFind (comments : List Comment) (u : String) : Option Comment :=
  comments.foldl (fun acc c => if c.uri == u then some (nodeOf c) else acc) none

/-- The test `commentMap.has(u)`. -/
def commentMapHas (comments : List Comment) (u : String) : Bool :=
  (commentMapFind comments u).isSome

/-- The linking test `comment.parentUri && commentMap.has(comment.parentUri)`
of the second pass (an absent or empty `parentUri` is falsy). -/
def attachTest (comments : List Comment) (c : Comment) : Bool :=
  match c.parentUri with
  | none => false
  | some p => p != "" && commentMapHas comments p

/-- The test selecting the comments whose node is pushed into the replies
list of the node keyed `u`: passing the linking test with parent address
`u` (map keys are unique, so `commentMap.get(p)` is the node keyed `u`
exactly when `p = u`). -/
def isChildOf (comments : List Comment) (u : String) (c : Comment) : Bool :=
  match c.parentUri with
  | none => false
  | some p => p != "" && commentMapHas comments p && p == u

/-- The comments whose node is pushed into the replies list of the node
keyed `u`, in input order. -/
def childComments (comments : List Comment) (u : String) : List Comment :=
  comments.filter (isChildOf comments u)

/-- The node `commentMap.get(c.uri)!` fetched in the second pass; the key
`c.uri` is always present for `c` in the input list, so the `getD` default
is never returned. -/
def nodeForUri (comments : List Comment) (c : Comment) : Comment :=
  (commentMapFind comments c.uri).getD (nodeOf c)

/-- The sort `comments.sort((a, b) => a.createdAt.getTime() -
b.createdAt.getTime())` of `buildCommentTree`: a stable sort by creation
time ascending (ECMAScript sorts are stable; stable insertion sort realizes
the same output). -/
def sortByCreatedAt (l : List Comment) : List Comment :=
  List.insertionSort (fun a b : Comment => a.createdAt ≤ b.createdAt) l

/-- Realization of the tree node for a map node `base`: the second-pass
linking gives the node the children `childComments` (each fetched from the
map by its own key), and the recursive `sortTree` sorts every replies list
by creation time.  The object graph built by the source realizes each
node exactly once through shared references; `fuel` bounds the recursion
depth and is always called with at least the length of the input list,
which covers every chain of distinct keys. -/
def realizeNode (comments : List Comment) : ℕ → Comment → Comment
  | 0 => fun base => base
  | fuel + 1 => fun base =>
      base.withReplies (some (sortByCreatedAt
        ((childComments comments base.uri).map
          (fun c => realizeNode comments fuel (nodeForUri comments c)))))

/-- The function `buildCommentTree` of `src/comments.ts`: two-pass
index-then-link over the flat list, roots being the comments failing the
linking test (pushed in input order), followed by the recursive
date-ascending sort of `sortTree`. -/
def buildCommentTree (comments : List Comment) : List Comment :=
  sortByCreatedAt
    ((comments.filter (fun c => !attachTest comments c)).map
      (fun c => realizeNode comments comments.length (nodeForUri comments c)))

/-- Per-node comment count: one for the node plus the counts of its nested
replies (the walk of `countComments`). -/
def Comment.countNode : Comment → ℕ
  | .mk _ _ _ _ _ _ _ _ _ _ none => 1
  | .mk _ _ _ _ _ _ _ _ _ _ (some rs) => 1 + countList rs
where
  countList : List Comment → ℕ
    | [] => 0
    | c :: cs => c.countNode + countList cs

/-- The function `countComments` of `src/comments.ts`. -/
def countComments (tree : List Comment) : ℕ := Comment.countNode.countList tree

/-- Per-node flattening: the node with `replies` set to `undefined`
(`{...comment, replies: undefined}`) followed by the flattening of its
replies, depth first (the walk of `flattenComments`). -/
def Comment.flattenNode : Comment → List Comment
  | .mk u c t a ca s su p lc rc none => [Comment.mk u c t a ca s su p lc rc none]
  | .mk u c t a ca s su p lc rc (some rs) =>
      Comment.mk u c t a ca s su p lc rc none :: flattenList rs
where
  flattenList : List Comment → List Comment
    | [] => []
    | c :: cs => c.flattenNode ++ flattenList cs

/-- The function `flattenComments` of `src/comments.ts`. -/
def flattenComments (tree : List Comment) : List Comment :=
  Comment.flattenNode.flattenList tree

/-- The spread `{...comment, replies: undefined}`. -/
def stripReplies (c : Comment) : Comment := c.withReplies none

/-! ### The thread-build scenario (claim C3) -/

/-- A fixed author for the thread-build scenario. -/
def scnAuthor : Author := ⟨"did:plc:x", "x.bsky.social", none, none⟩

/-- Scenario comment A: no parent, created at 10. -/
def cmtA : Comment :=
  .mk "at://a" "cidA" "A" scnAuthor 10 "bluesky" "uA" none none none none

/-- Scenario comment B: parent A, created at 20. -/
def cmtB : Comment :=
  .mk "at://b" "cidB" "B" scnAuthor 20 "bluesky" "uB" (some "at://a")
    none none none

/-- Scenario comment C: parent A, created at 15. -/
def cmtC : Comment :=
  .mk "at://c" "cidC" "C" scnAuthor 15 "bluesky" "uC" (some "at://a")
    none none none

/-- Scenario comment D: parent B, created at 30. -/
def cmtD : Comment :=
  .mk "at://d" "cidD" "D" scnAuthor 30 "bluesky" "uD" (some "at://b")
    none none none

/-- Expected tree node for D (leaf). -/
def treeD : Comment :=
  .mk "at://d" "cidD" "D" scnAuthor 30 "bluesky" "uD" (some "at://b")
    none none (some [])

/-- Expected tree node for B, with single reply D. -/
def treeB : Comment :=
  .mk "at://b" "cidB" "B" scnAuthor 20 "bluesky" "uB" (some "at://a")
    none none (some [treeD])

/-- Expected tree node for C (leaf). -/
def treeC : Comment :=
  .mk "at://c" "cidC" "C" scnAuthor 15 "bluesky" "uC" (some "at://a")
    none none (some [])

/-- Expected root node A, replies sorted by creation time: C (15) before
B (20). -/
def treeA : Comment :=
  .mk "at://a" "cidA" "A" scnAuthor 10 "bluesky" "uA" none none none
    (some [treeC, treeB])

/-- C3: for the four scenario comments A (no parent, t=10), B (parent A,
t=20), C (parent A, t=15), D (parent B, t=30) presented in any input order,
`buildCommentTree` returns exactly one root A with A.replies = [C, B]
(creation time ascending) and B.replies = [D], and `countComments` on the
result returns 4. -/
theorem buildCommentTree_scenario (l : List Comment)
    (hperm : l.Perm [cmtA, cmtB, cmtC, cmtD]) :
    buildCommentTree l = [treeA] ∧ countComments (buildCommentTree l) = 4 := by
  have key : ∀ l0 ∈ ([cmtA, cmtB, cmtC, cmtD]).permutations',
      buildCommentTree l0 = [treeA] ∧
        countComments (buildCommentTree l0) = 4 := by decide
  exact key l (List.mem_permutations'.mpr hperm)

/-- C3 witness: the scenario theorem applied at the input order
[A, B, C, D]. -/
theorem buildCommentTree_scenario_witness :
    buildCommentTree [cmtA, cmtB, cmtC, cmtD] = [treeA] ∧
      countComments (buildCommentTree [cmtA, cmtB, cmtC, cmtD]) = 4 :=
  buildCommentTree_scenario _ (List.Perm.refl _)

/-! ### Fetching replies and mentions (`src/comments.ts`, lines 74-196) -/

/-- The Bluesky post shape consumed by `bskyPostToComment`: the fields the
conversion reads.  Optional fields model the optional-chaining reads of the
source; timestamps are millisecond values. -/
structure BskyPost where
  uri : String
  cid : String
  author : Author
  recordText : Option String := none
  recordCreatedAt : Option Int := none
  indexedAt : Int
  likeCount : Option ℕ := none
  replyCount : Option ℕ := none
  replyParentUri : Option String := none
deriving DecidableEq, Repr

/-- The trailing segment `uri.split('/').pop()` used to build the
`bsky.app` source URL: the part of the string after the last slash (the
whole string when it has no slash). -/
def lastUriSegment (s : String) : String :=
  ⟨(s.data.reverse.takeWhile (fun c => c != '/')).reverse⟩

/-- The function `bskyPostToComment` of `src/comments.ts` (reply depth does
not influence the result and is dropped).  `parentUri` is set only when the
optional-chained `post.record?.reply?.parent?.uri` is truthy. -/
def bskyPostToComment (post : BskyPost) : Comment :=
  Comment.mk post.uri post.cid (post.recordText.getD "") post.author
    (post.recordCreatedAt.getD post.indexedAt) "bluesky"
    ("https://bsky.app/profile/" ++ post.author.handle ++ "/post/"
      ++ lastUriSegment post.uri)
    (match post.replyParentUri with
     | some p => if p == "" then none else some p
     | none => none)
    post.likeCount post.replyCount none

/-- The nested reply-thread shape returned by `getPostThread`. -/
inductive ThreadView where
  | mk (post : Option BskyPost) (replies : Option (List ThreadView)) :
      ThreadView

/-- Root post of a thread view. -/
def ThreadView.post : ThreadView → Option BskyPost
  | .mk p _ => p

/-- Nested replies of a thread view. -/
def ThreadView.replies : ThreadView → Option (List ThreadView)
  | .mk _ r => r

/-- The recursion `processThread(thread, maxDepth, currentDepth)` of
`src/comments.ts`, re-indexed by the remaining depth budget
`fuel = maxDepth + 1 - currentDepth`: the guard `currentDepth > maxDepth`
is exactly `fuel = 0`, and `includePost` is `currentDepth > 0` (the root
post itself is skipped).  Each recursive call decrements the budget and
passes `includePost = true`. -/
def processThreadF : ℕ → Bool → ThreadView → List Comment
  | 0 => fun _ _ => []
  | fuel + 1 => fun includePost t =>
      (if includePost then
        match t.post with
        | some p => [bskyPostToComment p]
        | none => []
      else [])
      ++ (match t.replies with
          | some rs => (rs.map (processThreadF fuel true)).flatten
          | none => [])

/-- The three shapes of `response.data.thread` distinguished by
`fetchBlueskyReplies`: a falsy value, a not-found marker
(`$type === 'app.bsky.feed.defs#notFoundPost'`), or a thread view. -/
inductive ThreadUpstream where
  | missing : ThreadUpstream
  | notFoundPost : ThreadUpstream
  | found (t : ThreadView) : ThreadUpstream

/-- The function `fetchBlueskyReplies` of `src/comments.ts`, with the result
of the awaited `getPostThread` call as a parameter: a thrown collaborator
error is caught (logged) and degrades to `[]`, a missing or not-found
thread yields `[]`, and a found thread is processed from depth 0. -/
def fetchBlueskyReplies (res : Except Unit ThreadUpstream)
    (maxDepth : ℕ) : List Comment :=
  match res with
  | .error _ => []
  | .ok .missing => []
  | .ok .notFoundPost => []
  | .ok (.found t) => processThreadF (maxDepth + 1) false t

/-- The function `searchBlueskyMentions` of `src/comments.ts`, with the
result of the awaited `searchPosts` call as a parameter: a thrown error is
caught (logged) and degrades to `[]`, a falsy `posts` field yields `[]`,
and otherwise every hit is converted by `bskyPostToComment`. -/
def searchBlueskyMentions
    (res : Except Unit (Option (List BskyPost))) : List Comment :=
  match res with
  | .error _ => []
  | .ok none => []
  | .ok (some posts) => posts.map bskyPostToComment

/-- One step of the mention-deduplication loop of `fetchComments`: a mention
whose address is already in `existingUris` is skipped, otherwise it is
appended and its address recorded. -/
def dedupStep (st : List Comment × List String) (m : Comment) :
    List Comment × List String :=
  if st.2.contains m.uri then st else (st.1 ++ [m], st.2 ++ [m.uri])

/-- The function `fetchComments` of `src/comments.ts`, with the results of
the two collaborator calls as parameters.  Thread replies are collected
first (when `bskyPostUri` is truthy), then search mentions are appended
after exact-address deduplication against the collected addresses and the
root-post address (when `canonicalUrl` is truthy), the combined list is
truncated to `maxComments`, and the tree is built from the prefix.  (The
`maxResults` value passed to the search call only parameterizes the
collaborator and does not affect this processing.) -/
def fetchComments (bskyPostUri canonicalUrl : Option String)
    (maxDepth maxComments : ℕ) (threadRes : Except Unit ThreadUpstream)
    (searchRes : Except Unit (Option (List BskyPost))) : List Comment :=
  let threadPart :=
    if jsTruthy bskyPostUri then fetchBlueskyReplies threadRes maxDepth
    else []
  let allComments :=
    if jsTruthy canonicalUrl then
      let mentions := searchBlueskyMentions searchRes
      let existing := threadPart.map Comment.uri
        ++ (if jsTruthy bskyPostUri then [bskyPostUri.getD ""] else [])
      (mentions.foldl dedupStep (threadPart, existing)).1
    else threadPart
  buildCommentTree (allComments.take maxComments)

/-- C8: failure isolation of `fetchComments`.  With both a root post and a
canonical URL configured, a thrown reply-thread fetch yields exactly the
result obtained for a cleanly empty thread, namely the tree built from the
deduplicated search mentions alone; symmetrically, a thrown search yields
the tree built from the thread replies alone.  Neither failure propagates
(the embedding of the catch blocks is total). -/
theorem fetchComments_failure_isolation (u url : String) (hu : u ≠ "")
    (hurl : url ≠ "") (maxDepth maxComments : ℕ) (e e2 : Unit)
    (threadRes : Except Unit ThreadUpstream)
    (searchRes : Except Unit (Option (List BskyPost))) :
    fetchComments (some u) (some url) maxDepth maxComments
        (Except.error e) searchRes
      = fetchComments (some u) (some url) maxDepth maxComments
          (Except.ok ThreadUpstream.notFoundPost) searchRes
    ∧ fetchComments (some u) (some url) maxDepth maxComments
        (Except.error e) searchRes
      = buildCommentTree
          ((((searchBlueskyMentions searchRes).foldl dedupStep
            ([], [u])).1).take maxComments)
    ∧ fetchComments (some u) (some url) maxDepth maxComments threadRes
        (Except.error e2)
      = buildCommentTree
          ((fetchBlueskyReplies threadRes maxDepth).take maxComments) := by
  have htu : jsTruthy (some u) = true := by simp [jsTruthy, hu]
  have hturl : jsTruthy (some url) = true := by simp [jsTruthy, hurl]
  refine ⟨?_, ?_, ?_⟩ <;>
    simp [fetchComments, htu, hturl, fetchBlueskyReplies, searchBlueskyMentions]

/-- A concrete search hit used in the C8 witness. -/
def mentionPost : BskyPost :=
  { uri := "at://did:plc:y/app.bsky.feed.post/m1"
    cid := "cidM"
    author := scnAuthor
    indexedAt := 40 }

/-- C8 witness: the failure-isolation theorem applied at a concrete root
post, canonical URL, and a concrete one-hit search result. -/
theorem fetchComments_failure_isolation_witness :
    ("at://did:plc:x/app.bsky.feed.post/p1" : String) ≠ "" ∧
    ("https://blog.example/post" : String) ≠ "" ∧
    (fetchComments (some "at://did:plc:x/app.bsky.feed.post/p1")
        (some "https://blog.example/post") 3 100 (Except.error ())
        (Except.ok (some [mentionPost]))
      = fetchComments (some "at://did:plc:x/app.bsky.feed.post/p1")
          (some "https://blog.example/post") 3 100
          (Except.ok ThreadUpstream.notFoundPost)
          (Except.ok (some [mentionPost]))) := by
  refine ⟨by decide, by decide, ?_⟩
  exact (fetchComments_failure_isolation _ _ (by decide) (by decide) 3 100 () ()
    (Except.ok ThreadUpstream.notFoundPost)
    (Except.ok (some [mentionPost]))).1

/-! ### Structural lemmas for the comment operations -/

theorem Comment.withReplies_uri (c : Comment) (r : Option (List Comment)) :
    (c.withReplies r).uri = c.uri := by cases c; rfl

theorem Comment.withReplies_createdAt (c : Comment)
    (r : Option (List Comment)) :
    (c.withReplies r).createdAt = c.createdAt := by cases c; rfl

theorem Comment.withReplies_parentUri (c : Comment)
    (r : Option (List Comment)) :
    (c.withReplies r).parentUri = c.parentUri := by cases c; rfl

theorem Comment.withReplies_replies (c : Comment) (r : Option (List Comment)) :
    (c.withReplies r).replies = r := by cases c; rfl

theorem stripReplies_withReplies (c : Comment) (r : Option (List Comment)) :
    stripReplies (c.withReplies r) = stripReplies c := by cases c; rfl

theorem nodeOf_uri (c : Comment) : (nodeOf c).uri = c.uri := by cases c; rfl

theorem stripReplies_nodeOf (c : Comment) :
    stripReplies (nodeOf c) = stripReplies c := by cases c; rfl

theorem flattenList_eq_flatMap : ∀ l : List Comment,
    Comment.flattenNode.flattenList l = l.flatMap Comment.flattenNode := by
  intro l
  induction l with
  | nil => rfl
  | cons c cs ih =>
      rw [Comment.flattenNode.flattenList, ih, List.flatMap_cons]

theorem flattenNode_withReplies_some (c : Comment) (rs : List Comment) :
    (c.withReplies (some rs)).flattenNode
      = stripReplies c :: Comment.flattenNode.flattenList rs := by
  cases c; rfl

theorem flattenNode_nodeOf (c : Comment) :
    (nodeOf c).flattenNode = [stripReplies c] := by cases c; rfl

theorem Comment.countNode_eq_length : ∀ c : Comment,
    c.countNode = c.flattenNode.length
  | .mk u cc t a ca s su p lc rc none => by
      simp [Comment.countNode, Comment.flattenNode]
  | .mk u cc t a ca s su p lc rc (some rs) => by
      simp [Comment.countNode, Comment.flattenNode, countList_eq rs,
        Nat.add_comm]
where
  countList_eq : ∀ l : List Comment,
      Comment.countNode.countList l
        = (Comment.flattenNode.flattenList l).length
    | [] => by
        simp [Comment.countNode.countList, Comment.flattenNode.flattenList]
    | c :: cs => by
        simp [Comment.countNode.countList, Comment.flattenNode.flattenList,
          Comment.countNode_eq_length c, countList_eq cs]

theorem countComments_eq_length_flatten (t : List Comment) :
    countComments t = (flattenComments t).length :=
  Comment.countNode_eq_length.countList_eq t

/-- Addresses of a comment list, in order. -/
def urisOf (l : List Comment) : List String := l.map Comment.uri

theorem commentMapFind_foldl (u : String) : ∀ (l : List Comment)
    (acc : Option Comment),
    l.foldl (fun acc c => if c.uri == u then some (nodeOf c) else acc) acc
      = (l.reverse.find? (fun c => c.uri == u)).elim acc
          (fun c => some (nodeOf c)) := by
  intro l
  induction l with
  | nil => intro acc; rfl
  | cons x xs ih =>
      intro acc
      rw [List.foldl_cons, ih, List.reverse_cons, List.find?_append]
      cases hfind : xs.reverse.find? (fun c => c.uri == u) with
      | some c => simp
      | none =>
          cases hx : (x.uri == u) with
          | true => simp [List.find?, hx]
          | false => simp [List.find?, hx]

theorem commentMapFind_eq_revFind (l : List Comment) (u : String) :
    commentMapFind l u
      = (l.reverse.find? (fun c => c.uri == u)).map nodeOf := by
  rw [commentMapFind, commentMapFind_foldl]
  cases l.reverse.find? (fun c => c.uri == u) <;> rfl

theorem commentMapHas_iff (l : List Comment) (u : String) :
    commentMapHas l u = true ↔ ∃ c ∈ l, c.uri = u := by
  rw [commentMapHas, commentMapFind_eq_revFind]
  rw [Option.isSome_map', List.find?_isSome]
  constructor
  · rintro ⟨c, hc, hp⟩
    exact ⟨c, List.mem_reverse.mp hc, by simpa using hp⟩
  · rintro ⟨c, hc, hp⟩
    exact ⟨c, List.mem_reverse.mpr hc, by simpa using hp⟩

theorem commentMapHas_of_mem {l : List Comment} {c : Comment} (hc : c ∈ l) :
    commentMapHas l c.uri = true :=
  (commentMapHas_iff l c.uri).mpr ⟨c, hc, rfl⟩

theorem find?_eq_some_of_unique {p : Comment → Bool} :
    ∀ (l : List Comment) (c : Comment), c ∈ l → p c = true →
      (∀ x ∈ l, p x = true → x = c) → l.find? p = some c := by
  intro l
  induction l with
  | nil => intro c hc; cases hc
  | cons x xs ih =>
      intro c hc hp huniq
      cases hx : p x with
      | true =>
          rw [List.find?_cons_of_pos _ hx]
          exact congrArg some (huniq x (List.mem_cons_self _ _) hx)
      | false =>
          rw [List.find?_cons_of_neg _ (by simp [hx])]
          have hcx : c ≠ x := fun h => by rw [h] at hp; exact absurd hp (by simp [hx])
          have hc' : c ∈ xs := by
            rcases List.mem_cons.mp hc with h | h
            · exact absurd h hcx
            · exact h
          exact ih c hc' hp (fun y hy hpy => huniq y (List.mem_cons_of_mem _ hy) hpy)

theorem uri_injOn_of_nodup {l : List Comment} (hU : (urisOf l).Nodup) :
    ∀ x ∈ l, ∀ y ∈ l, x.uri = y.uri → x = y :=
  List.inj_on_of_nodup_map hU

theorem commentMapFind_of_nodup {l : List Comment} (hU : (urisOf l).Nodup)
    {c : Comment} (hc : c ∈ l) :
    commentMapFind l c.uri = some (nodeOf c) := by
  rw [commentMapFind_eq_revFind]
  have hfind : l.reverse.find? (fun x => x.uri == c.uri) = some c := by
    apply find?_eq_some_of_unique
    · exact List.mem_reverse.mpr hc
    · simp
    · intro x hx hpx
      exact uri_injOn_of_nodup hU x (List.mem_reverse.mp hx) c hc
        (by simpa using hpx)
  rw [hfind]
  rfl

theorem commentMapFind_mem {l : List Comment} {u : String} {pc : Comment}
    (h : commentMapFind l u = some pc) :
    ∃ orig ∈ l, orig.uri = u ∧ pc = nodeOf orig := by
  rw [commentMapFind_eq_revFind] at h
  rcases Option.map_eq_some'.mp h with ⟨orig, hfind, rfl⟩
  refine ⟨orig, List.mem_reverse.mp (List.mem_of_find?_eq_some hfind), ?_, rfl⟩
  have := List.find?_some hfind
  simpa using this

theorem nodeForUri_of_nodup {l : List Comment} (hU : (urisOf l).Nodup)
    {c : Comment} (hc : c ∈ l) : nodeForUri l c = nodeOf c := by
  rw [nodeForUri, commentMapFind_of_nodup hU hc]
  rfl

/-! ### Roots, children and the flattened specification of the tree -/

theorem attachTest_withReplies (l : List Comment) (c : Comment)
    (r : Option (List Comment)) :
    attachTest l (c.withReplies r) = attachTest l c := by cases c; rfl

theorem attachTest_eq_true_iff {l : List Comment} {c : Comment} :
    attachTest l c = true ↔ ∃ p, c.parentUri = some p ∧ (p != "") = true ∧
      commentMapHas l p = true := by
  rw [attachTest]
  cases hp : c.parentUri with
  | none => simp
  | some p => simp [hp]

theorem isChildOf_eq_true_iff {l : List Comment} {u : String} {c : Comment} :
    isChildOf l u c = true ↔ c.parentUri = some u ∧ (u != "") = true ∧
      commentMapHas l u = true := by
  rw [isChildOf]
  cases hp : c.parentUri with
  | none => simp
  | some p =>
      simp only [Bool.and_eq_true, beq_iff_eq, Option.some_inj]
      constructor
      · rintro ⟨⟨h1, h2⟩, rfl⟩
        exact ⟨rfl, h1, h2⟩
      · rintro ⟨rfl, h1, h2⟩
        exact ⟨⟨h1, h2⟩, rfl⟩

theorem mem_childComments {l : List Comment} {u : String} {c : Comment} :
    c ∈ childComments l u ↔ c ∈ l ∧ c.parentUri = some u ∧
      (u != "") = true ∧ commentMapHas l u = true := by
  rw [childComments, List.mem_filter, isChildOf_eq_true_iff]

theorem attachTest_of_isChildOf {l : List Comment} {u : String} {c : Comment}
    (h : isChildOf l u c = true) : attachTest l c = true := by
  rcases isChildOf_eq_true_iff.mp h with ⟨hp, h1, h2⟩
  exact attachTest_eq_true_iff.mpr ⟨u, hp, h1, h2⟩

/-- Bounded reachability of a root along the parent chain: depth 0 requires
the comment itself to fail the linking test (be a root); depth `n + 1`
alternatively allows one step to the parent node stored in the map. -/
def rootedB (comments : List Comment) : ℕ → Comment → Bool
  | 0 => fun c => !attachTest comments c
  | n + 1 => fun c => !attachTest comments c ||
      (match c.parentUri with
       | none => false
       | some p =>
         match commentMapFind comments p with
         | some pc => rootedB comments n pc
         | none => false)

theorem rootedB_withReplies (l : List Comment) (n : ℕ) (c : Comment)
    (r : Option (List Comment)) :
    rootedB l n (c.withReplies r) = rootedB l n c := by
  cases n <;> (cases c; rfl)

theorem rootedB_nodeOf (l : List Comment) (n : ℕ) (c : Comment) :
    rootedB l n (nodeOf c) = rootedB l n c := by
  cases n <;> (cases c; rfl)

/-- The flattened multiset produced by realizing a forest with the given
bases and depth budget: every base contributes its stripped self followed by
the realization of its children. -/
def specForest (comments : List Comment) : ℕ → List Comment → List Comment
  | 0 => fun cs => cs.map stripReplies
  | fuel + 1 => fun cs =>
      cs.flatMap (fun c => stripReplies c ::
        specForest comments fuel (childComments comments c.uri))

theorem specForest_zero (l : List Comment) (cs : List Comment) :
    specForest l 0 cs = cs.map stripReplies := rfl

theorem specForest_succ (l : List Comment) (fuel : ℕ) (cs : List Comment) :
    specForest l (fuel + 1) cs
      = cs.flatMap (fun c => stripReplies c ::
          specForest l fuel (childComments l c.uri)) := rfl

theorem realizeNode_zero (l : List Comment) (base : Comment) :
    realizeNode l 0 base = base := rfl

theorem realizeNode_succ (l : List Comment) (fuel : ℕ) (base : Comment) :
    realizeNode l (fuel + 1) base
      = base.withReplies (some (sortByCreatedAt
          ((childComments l base.uri).map
            (fun c => realizeNode l fuel (nodeForUri l c))))) := rfl

theorem sortByCreatedAt_perm (l : List Comment) :
    (sortByCreatedAt l).Perm l :=
  List.perm_insertionSort _ l

theorem flattenList_perm_of_perm {t1 t2 : List Comment} (h : t1.Perm t2) :
    (Comment.flattenNode.flattenList t1).Perm
      (Comment.flattenNode.flattenList t2) := by
  rw [flattenList_eq_flatMap, flattenList_eq_flatMap]
  exact h.flatMap_right _

theorem flatten_realize_perm {l : List Comment} (hU : (urisOf l).Nodup) :
    ∀ (fuel : ℕ) (cs : List Comment), (∀ c ∈ cs, c ∈ l) →
      (Comment.flattenNode.flattenList
          (cs.map (fun c => realizeNode l fuel (nodeOf c)))).Perm
        (specForest l fuel cs) := by
  intro fuel
  induction fuel with
  | zero =>
      intro cs _
      have heq : ∀ cs2 : List Comment, Comment.flattenNode.flattenList
          (cs2.map (fun c => realizeNode l 0 (nodeOf c)))
            = cs2.map stripReplies := by
        intro cs2
        rw [flattenList_eq_flatMap]
        induction cs2 with
        | nil => rfl
        | cons c cs3 ih =>
            rw [List.map_cons, List.flatMap_cons, ih, realizeNode_zero,
              flattenNode_nodeOf, List.map_cons, List.singleton_append]
      rw [heq, specForest_zero]
  | succ fuel ih =>
      intro cs hcs
      rw [specForest_succ, flattenList_eq_flatMap, List.flatMap_map]
      apply List.Perm.flatMap_left
      intro c hc
      rw [realizeNode_succ, flattenNode_withReplies_some, nodeOf_uri,
        stripReplies_nodeOf]
      apply List.Perm.cons
      have hmapeq : (childComments l c.uri).map
          (fun x => realizeNode l fuel (nodeForUri l x))
            = (childComments l c.uri).map
                (fun x => realizeNode l fuel (nodeOf x)) := by
        apply List.map_congr_left
        intro x hx
        rw [nodeForUri_of_nodup hU (mem_childComments.mp hx).1]
      rw [hmapeq]
      exact (flattenList_perm_of_perm (sortByCreatedAt_perm _)).trans
        (ih _ (fun x hx => (mem_childComments.mp hx).1))

theorem specForest_append (l : List Comment) (fuel : ℕ) (as bs : List Comment) :
    specForest l fuel (as ++ bs)
      = specForest l fuel as ++ specForest l fuel bs := by
  cases fuel with
  | zero => simp [specForest_zero]
  | succ fuel => simp [specForest_succ]

theorem specForest_flatMap (l : List Comment) (fuel : ℕ)
    (cs : List Comment) (f : Comment → List Comment) :
    specForest l fuel (cs.flatMap f)
      = cs.flatMap (fun c => specForest l fuel (f c)) := by
  induction cs with
  | nil => cases fuel <;> rfl
  | cons c cs2 ih =>
      rw [List.flatMap_cons, specForest_append, ih, List.flatMap_cons]

theorem specForest_perm_congr (l : List Comment) (fuel : ℕ)
    {cs cs' : List Comment} (h : cs.Perm cs') :
    (specForest l fuel cs).Perm (specForest l fuel cs') := by
  cases fuel with
  | zero => exact h.map _
  | succ fuel => exact h.flatMap_right _

theorem specForest_succ_perm (l : List Comment) (fuel : ℕ)
    (cs : List Comment) :
    (specForest l (fuel + 1) cs).Perm
      (cs.map stripReplies ++ specForest l fuel
        (cs.flatMap (fun c => childComments l c.uri))) := by
  rw [specForest_succ, specForest_flatMap]
  exact (List.map_append_flatMap_perm cs _ _).symm

theorem rootedB_zero (l : List Comment) (c : Comment) :
    rootedB l 0 c = !attachTest l c := rfl

theorem rootedB_succ (l : List Comment) (n : ℕ) (c : Comment) :
    rootedB l (n + 1) c
      = (!attachTest l c ||
          match c.parentUri with
          | none => false
          | some p =>
            match commentMapFind l p with
            | some pc => rootedB l n pc
            | none => false) := rfl

theorem urisOf_filter_nodup {l : List Comment} (hU : (urisOf l).Nodup)
    (q : Comment → Bool) : (urisOf (l.filter q)).Nodup := by
  have hs : (urisOf (l.filter q)).Sublist (urisOf l) :=
    (List.filter_sublist l).map Comment.uri
  exact List.Nodup.sublist hs hU

theorem commentMapHas_mono {l : List Comment} {q : Comment → Bool}
    {p : String} (h : commentMapHas (l.filter q) p = true) :
    commentMapHas l p = true := by
  rcases (commentMapHas_iff _ _).mp h with ⟨c, hc, rfl⟩
  exact commentMapHas_of_mem (List.mem_of_mem_filter hc)

theorem commentMapHas_filter_attach_false {l : List Comment}
    (hU : (urisOf l).Nodup) {orig : Comment} (horig : orig ∈ l)
    (hroot : attachTest l orig = false) :
    commentMapHas (l.filter (fun c => attachTest l c)) orig.uri = false := by
  cases hb : commentMapHas (l.filter (fun c => attachTest l c)) orig.uri with
  | false => rfl
  | true =>
      exfalso
      rcases (commentMapHas_iff _ _).mp hb with ⟨c', hc', hcu⟩
      have hc'l : c' ∈ l := List.mem_of_mem_filter hc'
      have hceq : c' = orig := uri_injOn_of_nodup hU c' hc'l orig horig hcu
      have hattach : attachTest l c' = true := (List.mem_filter.mp hc').2
      rw [hceq, hroot] at hattach
      cases hattach

theorem childComments_transfer {l : List Comment}
    (u : String)
    (hu : commentMapHas (l.filter (fun c => attachTest l c)) u = true) :
    childComments l u
      = childComments (l.filter (fun c => attachTest l c)) u := by
  rw [childComments, childComments]
  have hul : commentMapHas l u = true := commentMapHas_mono hu
  have hpt : ∀ c ∈ l, isChildOf l u c
      = isChildOf (l.filter (fun c => attachTest l c)) u c := by
    intro c _
    rw [Bool.eq_iff_iff, isChildOf_eq_true_iff, isChildOf_eq_true_iff]
    constructor
    · rintro ⟨hp, h1, _⟩
      exact ⟨hp, h1, hu⟩
    · rintro ⟨hp, h1, _⟩
      exact ⟨hp, h1, hul⟩
  have himp : ∀ c, isChildOf (l.filter (fun c => attachTest l c)) u c = true →
      attachTest l c = true := by
    intro c hic
    rcases isChildOf_eq_true_iff.mp hic with ⟨hp, h1, h2⟩
    exact attachTest_eq_true_iff.mpr ⟨u, hp, h1, commentMapHas_mono h2⟩
  rw [List.filter_congr hpt, List.filter_filter]
  apply List.filter_congr
  intro c _
  cases hic : isChildOf (l.filter (fun c => attachTest l c)) u c with
  | false => simp
  | true => simp [himp c hic]

theorem rootedB_transfer {l : List Comment} (hU : (urisOf l).Nodup) :
    ∀ (n : ℕ) (c : Comment), c ∈ l.filter (fun c => attachTest l c) →
      rootedB l n c = true →
      rootedB (l.filter (fun c => attachTest l c)) n c = true := by
  have hU' : (urisOf (l.filter (fun c => attachTest l c))).Nodup :=
    urisOf_filter_nodup hU _
  intro n
  induction n with
  | zero =>
      intro c hc hr
      have hattach : attachTest l c = true := (List.mem_filter.mp hc).2
      rw [rootedB_zero, hattach] at hr
      cases hr
  | succ n ih =>
      intro c hc hr
      have hattach : attachTest l c = true := (List.mem_filter.mp hc).2
      rw [rootedB_succ, hattach] at hr
      simp only [Bool.not_true, Bool.false_or] at hr
      cases hp : c.parentUri with
      | none =>
          simp only [hp] at hr
          exact Bool.noConfusion hr
      | some p =>
          simp only [hp] at hr
          cases hfind : commentMapFind l p with
          | none =>
              simp only [hfind] at hr
              exact Bool.noConfusion hr
          | some pc =>
              simp only [hfind] at hr
              rcases commentMapFind_mem hfind with ⟨orig, horig, horigu, rfl⟩
              rw [rootedB_nodeOf] at hr
              by_cases hor : attachTest l orig = true
              · have horig' : orig ∈ l.filter (fun c => attachTest l c) :=
                  List.mem_filter.mpr ⟨horig, hor⟩
                have hfind' : commentMapFind
                    (l.filter (fun c => attachTest l c)) orig.uri
                      = some (nodeOf orig) :=
                  commentMapFind_of_nodup hU' horig'
                rw [rootedB_succ]
                simp only [hp, ← horigu, hfind', rootedB_nodeOf]
                simp [ih orig horig' hr]
              · have hor' : attachTest l orig = false := by
                  cases ho : attachTest l orig with
                  | false => rfl
                  | true => exact absurd ho hor
                have hnot : commentMapHas
                    (l.filter (fun c => attachTest l c)) p = false := by
                  rw [← horigu]
                  exact commentMapHas_filter_attach_false hU horig hor'
                have hfalse : attachTest
                    (l.filter (fun c => attachTest l c)) c = false := by
                  cases hb : attachTest (l.filter (fun c => attachTest l c)) c with
                  | false => rfl
                  | true =>
                      rcases attachTest_eq_true_iff.mp hb with ⟨p2, hp2, _, hhas⟩
                      rw [hp] at hp2
                      have hpe := Option.some.inj hp2
                      rw [← hpe, hnot] at hhas
                      exact Bool.noConfusion hhas
                rw [rootedB_succ, hfalse]
                simp

theorem mem_nonroot_of_child {l : List Comment} {x : Comment}
    {rs : List Comment}
    (hx : x ∈ rs.flatMap (fun r => childComments l r.uri)) :
    x ∈ l.filter (fun c => attachTest l c) := by
  rcases List.mem_flatMap.mp hx with ⟨r, _, hxr⟩
  have hxl := (mem_childComments.mp hxr).1
  have hchild : isChildOf l r.uri x = true := (List.mem_filter.mp hxr).2
  exact List.mem_filter.mpr ⟨hxl, attachTest_of_isChildOf hchild⟩

theorem specForest_transfer {l : List Comment} :
    ∀ (fuel : ℕ) (cs : List Comment),
      (∀ c ∈ cs, c ∈ l.filter (fun c => attachTest l c)) →
      specForest l fuel cs
        = specForest (l.filter (fun c => attachTest l c)) fuel cs := by
  intro fuel
  induction fuel with
  | zero => intro cs _; rfl
  | succ fuel ih =>
      intro cs hcs
      rw [specForest_succ, specForest_succ]
      induction cs with
      | nil => rfl
      | cons c cs2 ihcs =>
          rw [List.flatMap_cons, List.flatMap_cons]
          have hc : c ∈ l.filter (fun c => attachTest l c) :=
            hcs c (List.mem_cons_self _ _)
          have hhas : commentMapHas (l.filter (fun c => attachTest l c))
              c.uri = true := commentMapHas_of_mem hc
          have hchild := childComments_transfer c.uri hhas
          have hsub : ∀ x ∈ childComments l c.uri,
              x ∈ l.filter (fun c => attachTest l c) := by
            intro x hx
            have hxl := (mem_childComments.mp hx).1
            have hic : isChildOf l c.uri x = true := (List.mem_filter.mp hx).2
            exact List.mem_filter.mpr ⟨hxl, attachTest_of_isChildOf hic⟩
          rw [← hchild, ih (childComments l c.uri) hsub,
            ihcs (fun x hx => hcs x (List.mem_cons_of_mem _ hx))]

theorem nodup_flatMap_of_disjoint {f : Comment → List Comment} :
    ∀ rs : List Comment, rs.Nodup → (∀ r ∈ rs, (f r).Nodup) →
      (∀ r1 ∈ rs, ∀ r2 ∈ rs, r1 ≠ r2 → ∀ x ∈ f r1, x ∉ f r2) →
      (rs.flatMap f).Nodup := by
  intro rs
  induction rs with
  | nil => intro _ _ _; simp
  | cons r rs2 ih =>
      intro hnd hfn hdisj
      rw [List.flatMap_cons]
      have hnd2 := List.nodup_cons.mp hnd
      apply List.Nodup.append
      · exact hfn r (List.mem_cons_self _ _)
      · exact ih hnd2.2
          (fun r2 hr2 => hfn r2 (List.mem_cons_of_mem _ hr2))
          (fun r1 hr1 r2 hr2 hne => hdisj r1 (List.mem_cons_of_mem _ hr1)
            r2 (List.mem_cons_of_mem _ hr2) hne)
      · intro x hx1 hx2
        rcases List.mem_flatMap.mp hx2 with ⟨r2, hr2, hxr2⟩
        have hne : r ≠ r2 := by
          intro h
          rw [h] at hnd2
          exact hnd2.1 hr2
        exact hdisj r (List.mem_cons_self _ _) r2
          (List.mem_cons_of_mem _ hr2) hne x hx1 hxr2

theorem attachTest_filter_false_of_parent_root {l : List Comment}
    (hU : (urisOf l).Nodup) {x orig : Comment} {p : String}
    (hp : x.parentUri = some p) (horigl : orig ∈ l) (horigu : orig.uri = p)
    (horoot : attachTest l orig = false) :
    attachTest (l.filter (fun c => attachTest l c)) x = false := by
  cases hb : attachTest (l.filter (fun c => attachTest l c)) x with
  | false => rfl
  | true =>
      rcases attachTest_eq_true_iff.mp hb with ⟨p2, hp2, _, hhas2⟩
      rw [hp] at hp2
      have hpe := Option.some.inj hp2
      rw [← hpe, ← horigu,
        commentMapHas_filter_attach_false hU horigl horoot] at hhas2
      exact Bool.noConfusion hhas2

theorem children_of_roots_perm {l : List Comment}
    (hU : (urisOf l).Nodup) :
    ((l.filter (fun c => !attachTest l c)).flatMap
        (fun r => childComments l r.uri)).Perm
      ((l.filter (fun c => attachTest l c)).filter
        (fun c => !attachTest (l.filter (fun c => attachTest l c)) c)) := by
  have hndl : l.Nodup := List.Nodup.of_map _ hU
  have hnd1 : ((l.filter (fun c => !attachTest l c)).flatMap
      (fun r => childComments l r.uri)).Nodup := by
    apply nodup_flatMap_of_disjoint
    · exact hndl.filter _
    · intro r _
      exact hndl.filter _
    · intro r1 hr1 r2 hr2 hne x hx1 hx2
      have hp1 := (mem_childComments.mp hx1).2.1
      have hp2 := (mem_childComments.mp hx2).2.1
      rw [hp1] at hp2
      have hu12 : r1.uri = r2.uri := Option.some.inj hp2
      exact hne (uri_injOn_of_nodup hU r1 (List.mem_of_mem_filter hr1)
        r2 (List.mem_of_mem_filter hr2) hu12)
  have hnd2 : (((l.filter (fun c => attachTest l c)).filter
      (fun c => !attachTest (l.filter (fun c => attachTest l c)) c))).Nodup :=
    (hndl.filter _).filter _
  apply (List.perm_ext_iff_of_nodup hnd1 hnd2).mpr
  intro x
  constructor
  · intro hx
    rcases List.mem_flatMap.mp hx with ⟨r, hr, hxr⟩
    have hrl : r ∈ l := List.mem_of_mem_filter hr
    have hroot : attachTest l r = false := by
      have h := (List.mem_filter.mp hr).2
      simpa using h
    rcases mem_childComments.mp hxr with ⟨hxl, hpx, hne, hhas⟩
    have hax : attachTest l x = true :=
      attachTest_eq_true_iff.mpr ⟨r.uri, hpx, hne, hhas⟩
    refine List.mem_filter.mpr ⟨List.mem_filter.mpr ⟨hxl, hax⟩, ?_⟩
    have hfalse := attachTest_filter_false_of_parent_root hU hpx hrl rfl hroot
    simp [hfalse]
  · intro hx
    rcases List.mem_filter.mp hx with ⟨hx1, hx2⟩
    rcases List.mem_filter.mp hx1 with ⟨hxl, hax⟩
    rcases attachTest_eq_true_iff.mp hax with ⟨p, hp, hne, hhas⟩
    rcases (commentMapHas_iff _ _).mp hhas with ⟨orig, horigl, horigu⟩
    have horoot : attachTest l orig = false := by
      cases hb : attachTest l orig with
      | false => rfl
      | true =>
          exfalso
          have horig' : orig ∈ l.filter (fun c => attachTest l c) :=
            List.mem_filter.mpr ⟨horigl, hb⟩
          have hhas' : commentMapHas (l.filter (fun c => attachTest l c))
              p = true := by
            rw [← horigu]
            exact commentMapHas_of_mem horig'
          have hax' : attachTest (l.filter (fun c => attachTest l c)) x
              = true := attachTest_eq_true_iff.mpr ⟨p, hp, hne, hhas'⟩
          rw [hax'] at hx2
          simp at hx2
    apply List.mem_flatMap.mpr
    refine ⟨orig, List.mem_filter.mpr ⟨horigl, by simp [horoot]⟩, ?_⟩
    apply mem_childComments.mpr
    refine ⟨hxl, ?_, ?_, ?_⟩
    · rw [hp, horigu]
    · rw [horigu]
      exact hne
    · rw [horigu]
      exact hhas

theorem exists_root {l : List Comment} : ∀ (n : ℕ) (c : Comment), c ∈ l →
    rootedB l n c = true → ∃ r ∈ l, attachTest l r = false := by
  intro n
  induction n with
  | zero =>
      intro c hc hr
      rw [rootedB_zero] at hr
      exact ⟨c, hc, by simpa using hr⟩
  | succ n ih =>
      intro c hc hr
      rw [rootedB_succ] at hr
      rcases Bool.or_eq_true_iff.mp hr with h | h
      · exact ⟨c, hc, by simpa using h⟩
      · cases hp : c.parentUri with
        | none =>
            simp only [hp] at h
            exact Bool.noConfusion h
        | some p =>
            simp only [hp] at h
            cases hfind : commentMapFind l p with
            | none =>
                simp only [hfind] at h
                exact Bool.noConfusion h
            | some pc =>
                simp only [hfind] at h
                rcases commentMapFind_mem hfind with ⟨orig, horigl, _, rfl⟩
                rw [rootedB_nodeOf] at h
                exact ih orig horigl h

theorem specForest_roots_perm : ∀ (fuel : ℕ) (l : List Comment),
    (urisOf l).Nodup → (∀ c ∈ l, ∃ n, rootedB l n c = true) →
    l.length ≤ fuel →
    (specForest l fuel (l.filter (fun c => !attachTest l c))).Perm
      (l.map stripReplies) := by
  intro fuel
  induction fuel with
  | zero =>
      intro l _ _ hlen
      have hl : l = [] := List.length_eq_zero.mp (Nat.le_zero.mp hlen)
      subst hl
      exact List.Perm.refl _
  | succ fuel ih =>
      intro l hU hR hlen
      by_cases hnil : l = []
      · subst hnil
        exact List.Perm.refl _
      · obtain ⟨c0, hc0⟩ := List.exists_mem_of_ne_nil l hnil
        obtain ⟨n0, hn0⟩ := hR c0 hc0
        obtain ⟨r0, hr0l, hr0⟩ := exists_root n0 c0 hc0 hn0
        have hlt : (l.filter (fun c => attachTest l c)).length < l.length := by
          apply List.length_filter_lt_length_iff_exists.mpr
          exact ⟨r0, hr0l, by simp [hr0]⟩
        have hU' := urisOf_filter_nodup hU (fun c => attachTest l c)
        have hR' : ∀ c ∈ l.filter (fun c => attachTest l c), ∃ n,
            rootedB (l.filter (fun c => attachTest l c)) n c = true := by
          intro c hc
          obtain ⟨n, hn⟩ := hR c (List.mem_of_mem_filter hc)
          exact ⟨n, rootedB_transfer hU n c hc hn⟩
        have h1 := specForest_succ_perm l fuel
          (l.filter (fun c => !attachTest l c))
        have h2 : specForest l fuel
            ((l.filter (fun c => !attachTest l c)).flatMap
              (fun r => childComments l r.uri))
              = specForest (l.filter (fun c => attachTest l c)) fuel
                  ((l.filter (fun c => !attachTest l c)).flatMap
                    (fun r => childComments l r.uri)) :=
          specForest_transfer fuel _ (fun x hx => mem_nonroot_of_child hx)
        have h3 := specForest_perm_congr
          (l.filter (fun c => attachTest l c)) fuel
          (children_of_roots_perm hU)
        have h4 := ih (l.filter (fun c => attachTest l c)) hU' hR'
          (by omega)
        have hpart := List.filter_append_perm (fun c => !attachTest l c) l
        have hbn : l.filter (fun x => !(!attachTest l x))
            = l.filter (fun c => attachTest l c) :=
          List.filter_congr (fun c _ => by simp)
        rw [hbn] at hpart
        have h5 := hpart.map stripReplies
        rw [List.map_append] at h5
        refine h1.trans (List.Perm.trans ?_ h5)
        apply List.Perm.append_left
        rw [h2]
        exact h3.trans h4

/-- Tree totality: for a duplicate-free, root-reaching input list, the
flattening of the built tree is a permutation of the input with every
`replies` field cleared — the two-pass linking realizes every comment
exactly once. -/
theorem flatten_buildCommentTree_perm {l : List Comment}
    (hU : (urisOf l).Nodup)
    (hR : ∀ c ∈ l, ∃ n, rootedB l n c = true) :
    (flattenComments (buildCommentTree l)).Perm (l.map stripReplies) := by
  rw [buildCommentTree, flattenComments]
  have hmape : (l.filter (fun c => !attachTest l c)).map
      (fun c => realizeNode l l.length (nodeForUri l c))
        = (l.filter (fun c => !attachTest l c)).map
            (fun c => realizeNode l l.length (nodeOf c)) :=
    List.map_congr_left (fun c hc => by
      rw [nodeForUri_of_nodup hU (List.mem_of_mem_filter hc)])
  rw [hmape]
  exact (flattenList_perm_of_perm (sortByCreatedAt_perm _)).trans
    ((flatten_realize_perm hU l.length _
        (fun c hc => List.mem_of_mem_filter hc)).trans
      (specForest_roots_perm l.length l hU hR le_rfl))

/-- The combined candidate list assembled by `fetchComments` before the
`slice(0, maxComments)` truncation: thread replies first, then the
deduplicated search mentions. -/
def fetchCandidates (bskyPostUri canonicalUrl : Option String)
    (maxDepth : ℕ) (threadRes : Except Unit ThreadUpstream)
    (searchRes : Except Unit (Option (List BskyPost))) : List Comment :=
  let threadPart :=
    if jsTruthy bskyPostUri then fetchBlueskyReplies threadRes maxDepth
    else []
  if jsTruthy canonicalUrl then
    let mentions := searchBlueskyMentions searchRes
    let existing := threadPart.map Comment.uri
      ++ (if jsTruthy bskyPostUri then [bskyPostUri.getD ""] else [])
    (mentions.foldl dedupStep (threadPart, existing)).1
  else threadPart

theorem fetchComments_eq_build (bskyPostUri canonicalUrl : Option String)
    (maxDepth maxComments : ℕ) (threadRes : Except Unit ThreadUpstream)
    (searchRes : Except Unit (Option (List BskyPost))) :
    fetchComments bskyPostUri canonicalUrl maxDepth maxComments threadRes
        searchRes
      = buildCommentTree ((fetchCandidates bskyPostUri canonicalUrl maxDepth
          threadRes searchRes).take maxComments) := rfl

/-- Shared cap-and-prefix lemma: under a duplicate-free, parent-chain-rooted
retained prefix, the tree returned by `fetchComments` holds at most
`maxComments` comments in total, and its flattening is a permutation of the
retained prefix with cleared `replies` fields. -/
theorem fetchComments_take_flatten_perm
    (bskyPostUri canonicalUrl : Option String)
    (maxDepth maxComments : ℕ) (threadRes : Except Unit ThreadUpstream)
    (searchRes : Except Unit (Option (List BskyPost)))
    (hU : (urisOf ((fetchCandidates bskyPostUri canonicalUrl maxDepth
      threadRes searchRes).take maxComments)).Nodup)
    (hR : ∀ c ∈ (fetchCandidates bskyPostUri canonicalUrl maxDepth
        threadRes searchRes).take maxComments,
      rootedB ((fetchCandidates bskyPostUri canonicalUrl maxDepth
          threadRes searchRes).take maxComments)
        ((fetchCandidates bskyPostUri canonicalUrl maxDepth
          threadRes searchRes).take maxComments).length c = true) :
    countComments (fetchComments bskyPostUri canonicalUrl maxDepth
        maxComments threadRes searchRes) ≤ maxComments ∧
    (flattenComments (fetchComments bskyPostUri canonicalUrl maxDepth
        maxComments threadRes searchRes)).Perm
      (((fetchCandidates bskyPostUri canonicalUrl maxDepth threadRes
          searchRes).take maxComments).map stripReplies) := by
  have hperm := flatten_buildCommentTree_perm hU
    (fun c hc => ⟨_, hR c hc⟩)
  constructor
  · rw [fetchComments_eq_build, countComments_eq_length_flatten,
      hperm.length_eq, List.length_map]
    exact List.length_take_le _ _
  · rw [fetchComments_eq_build]
    exact hperm

/-- C4 (amended): when the retained prefix carries pairwise-distinct
addresses and every retained comment reaches a root along its parent chain,
the tree returned by `fetchComments` holds at most `maxComments` comments in
total (nested replies included), and the retained comments are exactly (as a
multiset, with cleared `replies` fields) the first `maxComments` elements of
the thread-replies-then-deduplicated-mentions concatenation — simple prefix
truncation, so every thread reply is retained before any search-sourced
comment is dropped.  Both hypotheses are necessary: a duplicated retained
address makes the shared map node appear (and be counted) once per
duplicate, and a comment on an unrooted parent cycle is silently dropped
from the tree. -/
theorem fetchComments_cap (bskyPostUri canonicalUrl : Option String)
    (maxDepth maxComments : ℕ) (threadRes : Except Unit ThreadUpstream)
    (searchRes : Except Unit (Option (List BskyPost)))
    (hU : (urisOf ((fetchCandidates bskyPostUri canonicalUrl maxDepth
      threadRes searchRes).take maxComments)).Nodup)
    (hR : ∀ c ∈ (fetchCandidates bskyPostUri canonicalUrl maxDepth
        threadRes searchRes).take maxComments,
      rootedB ((fetchCandidates bskyPostUri canonicalUrl maxDepth
          threadRes searchRes).take maxComments)
        ((fetchCandidates bskyPostUri canonicalUrl maxDepth
          threadRes searchRes).take maxComments).length c = true) :
    countComments (fetchComments bskyPostUri canonicalUrl maxDepth
        maxComments threadRes searchRes) ≤ maxComments ∧
    (flattenComments (fetchComments bskyPostUri canonicalUrl maxDepth
        maxComments threadRes searchRes)).Perm
      (((fetchCandidates bskyPostUri canonicalUrl maxDepth threadRes
          searchRes).take maxComments).map stripReplies) :=
  fetchComments_take_flatten_perm bskyPostUri canonicalUrl maxDepth
    maxComments threadRes searchRes hU hR

/-- A minimal Bluesky post for the cap and deduplication witnesses. -/
def capPost (u : String) (t : Int) (par : Option String) : BskyPost :=
  { uri := u
    cid := "cid-" ++ u
    author := scnAuthor
    indexedAt := t
    replyParentUri := par }

/-- A thread with a root post and three direct replies, for the cap
witness. -/
def capThread : ThreadView :=
  .mk (some (capPost "at://p0" 0 none))
    (some [.mk (some (capPost "at://r1" 1 (some "at://p0"))) none,
      .mk (some (capPost "at://r2" 2 (some "at://p0"))) none,
      .mk (some (capPost "at://r3" 3 (some "at://p0"))) none])

/-- Five search hits, for the cap witness. -/
def capSearch : List BskyPost :=
  [capPost "at://m1" 11 none, capPost "at://m2" 12 none,
    capPost "at://m3" 13 none, capPost "at://m4" 14 none,
    capPost "at://m5" 15 none]

/-- A reply thread whose replies carry a duplicated address: two distinct
replies both carry the address at://d, and a third reply attaches to that
address.  Used by the cap and deduplication counterexamples. -/
def dupThread : ThreadView :=
  .mk (some (capPost "at://p0" 0 none))
    (some [.mk (some (capPost "at://d" 1 none)) none,
      .mk (some (capPost "at://d" 2 none)) none,
      .mk (some (capPost "at://b" 5 (some "at://d"))) none])

/-- C4 witness: the cap theorem applied to the concrete scenario with
`maxComments = 5` and eight candidates (three thread replies, five search
hits). -/
theorem fetchComments_cap_witness :
    countComments (fetchComments (some "at://p0")
        (some "https://blog.example/post") 3 5
        (Except.ok (ThreadUpstream.found capThread))
        (Except.ok (some capSearch))) ≤ 5 ∧
    (flattenComments (fetchComments (some "at://p0")
        (some "https://blog.example/post") 3 5
        (Except.ok (ThreadUpstream.found capThread))
        (Except.ok (some capSearch)))).Perm
      (((fetchCandidates (some "at://p0") (some "https://blog.example/post")
          3 (Except.ok (ThreadUpstream.found capThread))
          (Except.ok (some capSearch))).take 5).map stripReplies) :=
  fetchComments_cap (some "at://p0") (some "https://blog.example/post") 3 5
    (Except.ok (ThreadUpstream.found capThread))
    (Except.ok (some capSearch)) (by decide) (by decide)

/-- C4 (as stated) is refuted by a terminating run with a duplicated
thread-reply address: with `maxComments = 3`, the three retained candidates
are two replies sharing the address at://d and one reply attached to that
address, and the search succeeds with no hits.  The second pass of
`buildCommentTree` pushes the single map node keyed at://d into the root
list once per duplicate, each carrying the attached reply, so the returned
tree holds 4 comments — strictly more than `maxComments`, and the run
terminates (the recursive sort visits only this finite tree). -/
theorem fetchComments_cap_counterexample :
    countComments (fetchComments (some "at://p0")
        (some "https://blog.example/post") 3 3
        (Except.ok (ThreadUpstream.found dupThread))
        (Except.ok (some []))) = 4 ∧
      ¬ countComments (fetchComments (some "at://p0")
          (some "https://blog.example/post") 3 3
          (Except.ok (ThreadUpstream.found dupThread))
          (Except.ok (some []))) ≤ 3 := by
  exact ⟨by decide, by decide⟩

/-- C5 witness: the amended publish theorem applied at a concrete logged-in
state and the all-absent input. -/
theorem publishDocument_always_issues_call_witness :
    (publishDocument (some "did:plc:w") {} "3aaaaaaaaaaaa"
        = Except.ok
            { repo := "did:plc:w"
              collection := "site.standard.document"
              rkey := "3aaaaaaaaaaaa"
              record := documentRecordEntries {} } ∧
      (({} : PublishDocumentInputR).site = none →
        ({} : PublishDocumentInputR).title = none →
        ({} : PublishDocumentInputR).publishedAt = none →
        (publishDocument (some "did:plc:w") {} "3aaaaaaaaaaaa").isOk
          = true)) :=
  publishDocument_always_issues_call "did:plc:w" "3aaaaaaaaaaaa" {}
